import Mathlib

/-!
Shallow embedding of the caska log-structured key-value store (`src/lib.rs`).

Bytes are modelled as `Nat`; Rust machine integers are modelled as `Nat`
with an explicit `% 2^32` exactly where the Rust code truncates
(`len() as u32`, `value_pos as u32`). Fallible Rust operations
(`TryFrom`, `Result`) are modelled with `Option`. The `HashMap` keydir is
modelled as an association list where insertion prepends and lookup takes
the first (most recent) binding, which is observationally equivalent to
`HashMap::insert`/`HashMap::get`.
-/

namespace Caska

/-- `ToBytes for u32` / `BigEndian::write_u32`: big-endian serialization of a
`u32`. On an argument `≥ 2^32` this agrees with first truncating mod `2^32`. -/
def u32ToBytesBE (n : Nat) : List Nat :=
  [n / 2 ^ 24 % 256, n / 2 ^ 16 % 256, n / 2 ^ 8 % 256, n % 256]

/-- `ReadBytesExt::read_u32::<BigEndian>` on a cursor: consume 4 bytes,
fail (`UnexpectedEof`) when fewer remain. -/
def readU32BE : List Nat → Option (Nat × List Nat)
  | a :: b :: c :: d :: rest => some (a * 2 ^ 24 + b * 2 ^ 16 + c * 2 ^ 8 + d, rest)
  | _ => none

/-- `Read::read_exact` into a buffer of length `n`: consume exactly `n`
bytes, fail (`UnexpectedEof`) when fewer remain. -/
def readExact (n : Nat) (bytes : List Nat) : Option (List Nat × List Nat) :=
  if n ≤ bytes.length then some (bytes.take n, bytes.drop n) else none

/-- The record type `KeyValueEntry` of `src/lib.rs`. -/
structure KeyValueEntry where
  tstamp : Nat
  ksz : Nat
  value_sz : Nat
  key : List Nat
  value : List Nat
deriving DecidableEq, Repr

/-- `KeyValueEntry::new`: the size fields are the byte lengths truncated
to `u32` (`key.len() as u32`, `value.len() as u32`). -/
def KeyValueEntry.new (tstamp : Nat) (key value : List Nat) : KeyValueEntry :=
  { tstamp := tstamp
    ksz := key.length % 2 ^ 32
    value_sz := value.length % 2 ^ 32
    key := key
    value := value }

/-- `KeyValueEntry::value_offset`: `3 * size_of::<u32>() + self.key.len()`. -/
def KeyValueEntry.value_offset (e : KeyValueEntry) : Nat :=
  3 * 4 + e.key.length

/-- `Write::write_all` on a `Vec<u8>` buffer: append; never fails. -/
def writeAll (buf data : List Nat) : Option (List Nat) :=
  some (buf ++ data)

/-- `WriteBytesExt::write_u32::<BigEndian>` on a `Vec<u8>` buffer: append
the 4 big-endian bytes; never fails. -/
def writeU32BE (buf : List Nat) (n : Nat) : Option (List Nat) :=
  some (buf ++ u32ToBytesBE n)

/-- `TryFrom<KeyValueEntry> for Vec<u8>`: the encoder. -/
def KeyValueEntry.encode (e : KeyValueEntry) : Option (List Nat) :=
  (writeU32BE [] e.tstamp).bind fun b1 =>
  (writeU32BE b1 e.ksz).bind fun b2 =>
  (writeU32BE b2 e.value_sz).bind fun b3 =>
  (writeAll b3 e.key).bind fun b4 =>
  writeAll b4 e.value

/-- `TryFrom<Vec<u8>> for KeyValueEntry`: the decoder. -/
def KeyValueEntry.decode (bytes : List Nat) : Option KeyValueEntry :=
  (readU32BE bytes).bind fun p1 =>
  (readU32BE p1.2).bind fun p2 =>
  (readU32BE p2.2).bind fun p3 =>
  (readExact p2.1 p3.2).bind fun pk =>
  (readExact p3.1 pk.2).map fun pv =>
  { tstamp := p1.1, ksz := p2.1, value_sz := p3.1, key := pk.1, value := pv.1 }

/-- The byte string `encode` produces (closed form). -/
def encBytes (e : KeyValueEntry) : List Nat :=
  u32ToBytesBE e.tstamp ++ u32ToBytesBE e.ksz ++ u32ToBytesBE e.value_sz ++ e.key ++ e.value

/-- The `u32` a buffer holds big-endian at offset `i` (0 when fewer than 4
bytes remain); `headerField bytes 4` is the declared key size,
`headerField bytes 8` the declared value size. -/
def headerField (bytes : List Nat) (i : Nat) : Nat :=
  ((readU32BE (bytes.drop i)).map Prod.fst).getD 0

/-- The index record `KeyDirEntry` of `src/lib.rs`; all four fields are `u32`. -/
structure KeyDirEntry where
  file_id : Nat
  value_sz : Nat
  value_pos : Nat
  tstamp : Nat
deriving DecidableEq, Repr

/-- The in-memory log segment `File` of `src/lib.rs`. -/
structure File where
  id : Nat
  data : List Nat
deriving DecidableEq, Repr

/-- `File::new`. -/
def File.new (id : Nat) : File :=
  { id := id, data := [] }

/-- `File::size`. -/
def File.size (f : File) : Nat :=
  f.data.length

/-- `File::append`: `extend_from_slice`. -/
def File.append (f : File) (data : List Nat) : File :=
  { f with data := f.data ++ data }

/-- Rust slice indexing `data.get(start..stop)`: `Some` of the subslice
iff `start ≤ stop ≤ data.len()`, otherwise `None`. -/
def rangeGet (data : List Nat) (start stop : Nat) : Option (List Nat) :=
  if start ≤ stop ∧ stop ≤ data.length then
    some ((data.drop start).take (stop - start))
  else
    none

/-- `MemoryStore` of `src/lib.rs`; the keydir `HashMap` as an association list. -/
structure MemoryStore where
  file : File
  keydir : List (List Nat × KeyDirEntry)
deriving DecidableEq, Repr

/-- `HashMap::get` over the association-list keydir: first (most recent)
binding wins. -/
def lookupKey : List (List Nat × KeyDirEntry) → List Nat → Option KeyDirEntry
  | [], _ => none
  | (k, e) :: rest, key => if k = key then some e else lookupKey rest key

/-- `MemoryStore::new`; the Rust code draws the file id from the wall
clock `now()`, modelled as a parameter. -/
def MemoryStore.new (id : Nat) : MemoryStore :=
  { file := File.new id, keydir := [] }

/-- `MemoryStore::get`: index lookup, then byte-range read from the segment. -/
def MemoryStore.get (s : MemoryStore) (key : List Nat) : Option (List Nat) :=
  (lookupKey s.keydir key).bind fun entry =>
    rangeGet s.file.data entry.value_pos (entry.value_pos + entry.value_sz)

/-- `MemoryStore::put`; `now` stands for the `now()` timestamp (a `u32`).
The index is updated before the record is appended, exactly as in the
source, and `value_pos as u32` truncates mod `2^32`. -/
def MemoryStore.put (s : MemoryStore) (now : Nat) (key value : List Nat) :
    Option MemoryStore :=
  let entry := KeyValueEntry.new now key value
  let value_pos := s.file.size + entry.value_offset
  let keydir_entry : KeyDirEntry :=
    { file_id := s.file.id
      value_sz := entry.value_sz
      value_pos := value_pos % 2 ^ 32
      tstamp := entry.tstamp }
  let keydir2 := (entry.key, keydir_entry) :: s.keydir
  (KeyValueEntry.encode entry).map fun entry_data =>
    { file := File.append s.file entry_data, keydir := keydir2 }

/-- One state-changing store operation (`get` takes `&self` and leaves the
store unchanged, so sequences of operations are sequences of puts). -/
structure PutOp where
  now : Nat
  key : List Nat
  value : List Nat
deriving DecidableEq, Repr

/-- Run one `put`; total because encoding never fails (`put_eq_some`). -/
def applyPut (s : MemoryStore) (op : PutOp) : MemoryStore :=
  (s.put op.now op.key op.value).getD s

/-- Run a sequence of store operations. -/
def runOps (s : MemoryStore) (ops : List PutOp) : MemoryStore :=
  ops.foldl applyPut s

/-- A store whose segment already holds `2^32` bytes (such a store is
reachable by large puts; the constant serves as a concrete input). -/
def bigStore : MemoryStore :=
  { file := { id := 0, data := List.replicate (2 ^ 32) 0 }, keydir := [] }

/-- A sample record: timestamp 42, key and value the 4-byte big-endian
encoding of 42 (the record of the repository's `encode` test). -/
def sampleEntry : KeyValueEntry :=
  KeyValueEntry.new 42 (u32ToBytesBE 42) (u32ToBytesBE 42)

/-- A store with an inconsistent index: the entry for key `[7]` points at
the byte range `[2, 7)` of a 3-byte segment. -/
def badStore : MemoryStore :=
  { file := { id := 0, data := [1, 2, 3] }
    keydir := [([7], { file_id := 0, value_sz := 5, value_pos := 2, tstamp := 0 })] }

lemma encode_eq (e : KeyValueEntry) : e.encode = some (encBytes e) := by
  simp [KeyValueEntry.encode, encBytes, writeU32BE, writeAll, List.append_assoc]

lemma encBytes_length (e : KeyValueEntry) :
    (encBytes e).length = 12 + e.key.length + e.value.length := by
  simp [encBytes, u32ToBytesBE]
  omega

lemma readU32BE_u32ToBytesBE (n : Nat) (rest : List Nat) :
    readU32BE (u32ToBytesBE n ++ rest) = some (n % 2 ^ 32, rest) := by
  simp [u32ToBytesBE, readU32BE]
  omega

lemma readExact_append (l rest : List Nat) :
    readExact l.length (l ++ rest) = some (l, rest) := by
  simp [readExact, List.take_left, List.drop_left]

lemma put_eq (s : MemoryStore) (now : Nat) (k v : List Nat) :
    s.put now k v = some
      { file := File.append s.file (encBytes (KeyValueEntry.new now k v))
        keydir := (k,
          { file_id := s.file.id
            value_sz := v.length % 2 ^ 32
            value_pos := (s.file.size + (12 + k.length)) % 2 ^ 32
            tstamp := now }) :: s.keydir } := by
  simp [MemoryStore.put, encode_eq, KeyValueEntry.new, KeyValueEntry.value_offset]

lemma applyPut_eq (s : MemoryStore) (op : PutOp) :
    applyPut s op =
      { file := File.append s.file (encBytes (KeyValueEntry.new op.now op.key op.value))
        keydir := (op.key,
          { file_id := s.file.id
            value_sz := op.value.length % 2 ^ 32
            value_pos := (s.file.size + (12 + op.key.length)) % 2 ^ 32
            tstamp := op.now }) :: s.keydir } := by
  simp [applyPut, put_eq]

lemma rangeGet_append (data extra v : List Nat) (a b : Nat)
    (h : rangeGet data a b = some v) :
    rangeGet (data ++ extra) a b = some v := by
  unfold rangeGet at h ⊢
  split at h
  case isTrue hc =>
    obtain ⟨hab, hbl⟩ := hc
    simp only [Option.some.injEq] at h
    rw [if_pos ⟨hab, by simp only [List.length_append]; omega⟩]
    rw [List.drop_append_of_le_length (by omega),
      List.take_append_of_le_length (by simp only [List.length_drop]; omega), h]
  case isFalse hc =>
    simp at h

lemma rangeGet_suffix (pre v : List Nat) :
    rangeGet (pre ++ v) pre.length (pre.length + v.length) = some v := by
  unfold rangeGet
  rw [if_pos ⟨Nat.le_add_right _ _, by simp⟩]
  rw [List.drop_left]
  have hlen : pre.length + v.length - pre.length = v.length := by omega
  rw [hlen, List.take_length]

lemma get_after_applyPut (s : MemoryStore) (now : Nat) (k v : List Nat)
    (hpos : s.file.size + 12 + k.length < 2 ^ 32) (hv : v.length < 2 ^ 32) :
    (applyPut s { now := now, key := k, value := v }).get k = some v := by
  rw [applyPut_eq]
  simp only [MemoryStore.get, lookupKey, if_pos rfl, Option.some_bind, File.append]
  rw [Nat.mod_eq_of_lt (show s.file.size + (12 + k.length) < 2 ^ 32 by omega),
    Nat.mod_eq_of_lt hv]
  have hsplit : s.file.data ++ encBytes (KeyValueEntry.new now k v)
      = (s.file.data ++ (u32ToBytesBE now ++ u32ToBytesBE (k.length % 2 ^ 32)
          ++ u32ToBytesBE (v.length % 2 ^ 32) ++ k)) ++ v := by
    simp [encBytes, KeyValueEntry.new, List.append_assoc]
  have hlen : (s.file.data ++ (u32ToBytesBE now ++ u32ToBytesBE (k.length % 2 ^ 32)
      ++ u32ToBytesBE (v.length % 2 ^ 32) ++ k)).length = s.file.size + (12 + k.length) := by
    simp [u32ToBytesBE, File.size]
    omega
  rw [hsplit, ← hlen]
  exact rangeGet_suffix _ v

lemma get_applyPut_ne (s : MemoryStore) (op : PutOp) (k v : List Nat)
    (hne : op.key ≠ k) (h : s.get k = some v) :
    (applyPut s op).get k = some v := by
  rw [applyPut_eq]
  unfold MemoryStore.get at h ⊢
  simp only [lookupKey, if_neg hne, File.append]
  cases hl : lookupKey s.keydir k with
  | none =>
    rw [hl] at h
    simp at h
  | some e =>
    rw [hl] at h
    simp only [Option.some_bind] at h ⊢
    exact rangeGet_append _ _ _ _ _ h

lemma get_applyPut_self (s : MemoryStore) (now : Nat) (k v : List Nat) :
    (applyPut s { now := now, key := k, value := v }).get k =
      rangeGet (s.file.data ++ encBytes (KeyValueEntry.new now k v))
        ((s.file.size + (12 + k.length)) % 2 ^ 32)
        ((s.file.size + (12 + k.length)) % 2 ^ 32 + v.length % 2 ^ 32) := by
  rw [applyPut_eq]
  simp only [MemoryStore.get, lookupKey, if_pos rfl, if_true, Option.some_bind, File.append]

lemma bigStore_data : bigStore.file.data = List.replicate (2 ^ 32) 0 :=
  rfl

lemma bigStore_size : bigStore.file.size = 2 ^ 32 := by
  simp only [File.size, bigStore_data, List.length_replicate]

lemma rangeGet_replicate_append (N : Nat) (extra : List Nat) (a b : Nat)
    (h1 : b ≤ N) (h2 : a ≤ b) :
    rangeGet (List.replicate N (0 : Nat) ++ extra) a b =
      some (List.replicate (b - a) 0) := by
  unfold rangeGet
  rw [if_pos ⟨h2, by simp only [List.length_append, List.length_replicate]; omega⟩]
  rw [List.drop_append_of_le_length (by simp only [List.length_replicate]; omega)]
  rw [List.take_append_of_le_length
    (by simp only [List.length_drop, List.length_replicate]; omega)]
  rw [List.drop_replicate, List.take_replicate]
  have hmin : (b - a) ⊓ (N - a) = b - a := inf_eq_left.mpr (by omega)
  rw [hmin]

lemma get_runOps_stable :
    ∀ (ops : List PutOp) (s : MemoryStore) (k v : List Nat),
      (∀ op ∈ ops, op.key ≠ k) → s.get k = some v →
      (runOps s ops).get k = some v := by
  intro ops
  induction ops with
  | nil =>
    intro s k v _ h
    simpa [runOps] using h
  | cons op rest ih =>
    intro s k v hops h
    simp only [runOps, List.foldl_cons]
    exact ih (applyPut s op) k v (fun o ho => hops o (by simp [ho]))
      (get_applyPut_ne s op k v (hops op (by simp)) h)

lemma readExact_all (l : List Nat) : readExact l.length l = some (l, []) := by
  have h := readExact_append l []
  rwa [List.append_nil] at h

lemma readU32BE_eq_of_le (bs : List Nat) (h : 4 ≤ bs.length) :
    readU32BE bs = some (headerField bs 0, bs.drop 4) := by
  rcases bs with _ | ⟨a, _ | ⟨b, _ | ⟨c, _ | ⟨d, rest⟩⟩⟩⟩
  · simp at h
  · simp at h
  · simp at h
  · simp at h
  · rfl

lemma readU32BE_none_of_lt (bs : List Nat) (h : bs.length < 4) : readU32BE bs = none := by
  rcases bs with _ | ⟨a, _ | ⟨b, _ | ⟨c, _ | ⟨d, rest⟩⟩⟩⟩
  · rfl
  · rfl
  · rfl
  · rfl
  · simp at h
    omega

lemma headerField_drop (bs : List Nat) (n : Nat) :
    headerField (bs.drop n) 0 = headerField bs n :=
  rfl

lemma lookupKey_runOps_none :
    ∀ (ops : List PutOp) (s : MemoryStore) (k : List Nat),
      (∀ op ∈ ops, op.key ≠ k) → lookupKey s.keydir k = none →
      lookupKey (runOps s ops).keydir k = none := by
  intro ops
  induction ops with
  | nil =>
    intro s k _ h
    simpa [runOps] using h
  | cons op rest ih =>
    intro s k hops h
    simp only [runOps, List.foldl_cons]
    apply ih (applyPut s op) k (fun o ho => hops o (by simp [ho]))
    rw [applyPut_eq]
    simp only [lookupKey, if_neg (hops op (by simp)), h]

lemma get_none_of_lookup_none (s : MemoryStore) (k : List Nat)
    (h : lookupKey s.keydir k = none) : s.get k = none := by
  simp [MemoryStore.get, h]

lemma lookup_after_put (s : MemoryStore) (now : Nat) (k v : List Nat) :
    (s.put now k v).bind (fun s2 => lookupKey s2.keydir k)
      = some { file_id := s.file.id
               value_sz := v.length % 2 ^ 32
               value_pos := (s.file.size + (12 + k.length)) % 2 ^ 32
               tstamp := now } := by
  rw [put_eq]
  simp only [Option.some_bind, lookupKey, if_pos rfl, if_true]

/-- Claim C1 (amended): after `put(k, v)` with no later `put` for the same
key `k`, `get(k)` returns exactly the value bytes `v`, provided the value's
absolute offset (segment size before the put, plus the 12-byte header and
the key length) and the value's length fit the `u32` index fields
(are below `2^32`). -/
theorem c1_put_get_consistency (s : MemoryStore) (now : Nat) (k v : List Nat)
    (ops : List PutOp) (hops : ∀ op ∈ ops, op.key ≠ k)
    (hpos : s.file.size + 12 + k.length < 2 ^ 32) (hv : v.length < 2 ^ 32) :
    (runOps (applyPut s { now := now, key := k, value := v }) ops).get k = some v :=
  get_runOps_stable ops _ k v hops
    (get_after_applyPut s now k v (by omega) hv)

/-- Concrete instance of `c1_put_get_consistency`. -/
theorem c1_put_get_consistency_witness :
    (∀ op ∈ ([{ now := 1, key := [1], value := [2] }] : List PutOp), op.key ≠ [5])
    ∧ (MemoryStore.new 0).file.size + 12 + ([5] : List Nat).length < 2 ^ 32
    ∧ ([7, 8] : List Nat).length < 2 ^ 32
    ∧ (runOps (applyPut (MemoryStore.new 0) { now := 9, key := [5], value := [7, 8] })
        [{ now := 1, key := [1], value := [2] }]).get [5] = some [7, 8] :=
  ⟨by decide, by decide, by decide,
    c1_put_get_consistency (MemoryStore.new 0) 9 [5] [7, 8]
      [{ now := 1, key := [1], value := [2] }] (by decide) (by decide) (by decide)⟩

/-- Claim C1 is false as universally stated: on a store whose segment
already holds `2^32` bytes, `value_pos as u32` truncates and `get`
returns bytes read from the wrong position instead of the value written. -/
theorem c1_put_get_consistency_cex :
    (runOps (applyPut bigStore { now := 0, key := [2], value := [9] }) []).get [2]
      ≠ some [9] := by
  have hget : (runOps (applyPut bigStore { now := 0, key := [2], value := [9] }) []).get [2]
      = some [0] := by
    simp only [runOps, List.foldl_nil]
    rw [get_applyPut_self]
    rw [bigStore_data, bigStore_size]
    have h1 : (2 ^ 32 + (12 + ([2] : List Nat).length)) % 2 ^ 32 = 13 := by
      simp only [List.length_cons, List.length_nil]
      omega
    have h2 : ([9] : List Nat).length % 2 ^ 32 = 1 := by
      simp only [List.length_cons, List.length_nil]
      omega
    rw [h1, h2]
    rw [rangeGet_replicate_append (2 ^ 32) _ 13 (13 + 1) (by omega) (by omega)]
    have h3 : (13 + 1 - 13 : Nat) = 1 := by omega
    rw [h3, List.replicate_one]
  rw [hget]
  simp

/-- Claim C4 (amended): after `put(k, v1)` then `put(k, v2)`, `get(k)`
returns `v2`, the segment still physically contains `v1`'s record
(the log is `old ++ record(v1) ++ record(v2)`), and the index entry for
`k` is the one written by the second put — provided the second record's
value offset and `v2`'s length fit the `u32` index fields. -/
theorem c4_last_write_wins (s : MemoryStore) (t1 t2 : Nat) (k v1 v2 : List Nat)
    (hpos : (applyPut s { now := t1, key := k, value := v1 }).file.size
      + 12 + k.length < 2 ^ 32)
    (hv : v2.length < 2 ^ 32) :
    (applyPut (applyPut s { now := t1, key := k, value := v1 })
        { now := t2, key := k, value := v2 }).get k = some v2
    ∧ (applyPut (applyPut s { now := t1, key := k, value := v1 })
        { now := t2, key := k, value := v2 }).file.data
      = s.file.data ++ encBytes (KeyValueEntry.new t1 k v1)
          ++ encBytes (KeyValueEntry.new t2 k v2)
    ∧ lookupKey (applyPut (applyPut s { now := t1, key := k, value := v1 })
        { now := t2, key := k, value := v2 }).keydir k
      = some { file_id := s.file.id
               value_sz := v2.length % 2 ^ 32
               value_pos := ((applyPut s { now := t1, key := k, value := v1 }).file.size
                 + (12 + k.length)) % 2 ^ 32
               tstamp := t2 } := by
  refine ⟨get_after_applyPut _ t2 k v2 (by omega) hv, ?_, ?_⟩
  · simp [applyPut_eq, File.append, List.append_assoc]
  · rw [applyPut_eq (applyPut s { now := t1, key := k, value := v1 })
      { now := t2, key := k, value := v2 }]
    simp only [lookupKey, if_pos rfl, if_true, applyPut_eq, File.append]

/-- Concrete instance of `c4_last_write_wins`. -/
theorem c4_last_write_wins_witness :
    ((applyPut (MemoryStore.new 0) { now := 1, key := [3], value := [4] }).file.size
        + 12 + ([3] : List Nat).length < 2 ^ 32)
    ∧ (([5] : List Nat).length < 2 ^ 32)
    ∧ (applyPut (applyPut (MemoryStore.new 0) { now := 1, key := [3], value := [4] })
        { now := 2, key := [3], value := [5] }).get [3] = some [5] :=
  ⟨by decide, by decide,
    (c4_last_write_wins (MemoryStore.new 0) 1 2 [3] [4] [5] (by decide) (by decide)).1⟩

/-- Claim C4 is false as universally stated: on a store whose segment
already holds `2^32` bytes, the second put's stored `u32` value offset
truncates, so `get(k)` does not return `v2`. -/
theorem c4_last_write_wins_cex :
    (applyPut (applyPut bigStore { now := 0, key := [2], value := [8] })
        { now := 0, key := [2], value := [9] }).get [2] ≠ some [9] := by
  have hdata : (applyPut bigStore { now := 0, key := [2], value := [8] }).file.data
      = List.replicate (2 ^ 32) 0 ++ encBytes (KeyValueEntry.new 0 [2] [8]) := by
    rw [applyPut_eq]
    simp only [File.append, bigStore_data]
  have hsize : (applyPut bigStore { now := 0, key := [2], value := [8] }).file.size
      = 2 ^ 32 + 14 := by
    simp only [File.size, hdata, List.length_append, List.length_replicate,
      encBytes_length, KeyValueEntry.new, List.length_cons, List.length_nil]
  have hget : (applyPut (applyPut bigStore { now := 0, key := [2], value := [8] })
      { now := 0, key := [2], value := [9] }).get [2] = some [0] := by
    rw [get_applyPut_self, hdata, hsize]
    have h1 : (2 ^ 32 + 14 + (12 + ([2] : List Nat).length)) % 2 ^ 32 = 27 := by
      simp only [List.length_cons, List.length_nil]
      omega
    have h2 : ([9] : List Nat).length % 2 ^ 32 = 1 := by
      simp only [List.length_cons, List.length_nil]
      omega
    rw [h1, h2, List.append_assoc]
    rw [rangeGet_replicate_append (2 ^ 32) _ 27 (27 + 1) (by omega) (by omega)]
    have h3 : (27 + 1 - 27 : Nat) = 1 := by omega
    rw [h3, List.replicate_one]
  rw [hget]
  simp

/-- Claim C6 (amended): the value offset stored in the index entry is
computed before the record is appended, from the segment size prior to
the write: it equals `(size + 12 + key length) mod 2^32` (the index field
is a `u32`), hence the untruncated sum whenever that sum is below `2^32`. -/
theorem c6_value_offset (s : MemoryStore) (now : Nat) (k v : List Nat) :
    (s.put now k v).bind (fun s2 => lookupKey s2.keydir k)
      = some { file_id := s.file.id
               value_sz := v.length % 2 ^ 32
               value_pos := (s.file.size + (12 + k.length)) % 2 ^ 32
               tstamp := now } :=
  lookup_after_put s now k v

/-- Claim C6 is false as universally stated: on a store whose segment
already holds `2^32` bytes, the stored value offset is the truncated
`(size + 12 + key length) mod 2^32`, not the sum itself. -/
theorem c6_value_offset_cex :
    ((bigStore.put 0 [2] [9]).bind (fun s2 => lookupKey s2.keydir [2])).map
        KeyDirEntry.value_pos
      ≠ some (bigStore.file.size + 12 + ([2] : List Nat).length) := by
  rw [lookup_after_put, Option.map_some', bigStore_size]
  intro h
  simp only [Option.some.injEq, List.length_cons, List.length_nil] at h
  omega

/-- Claim C2: for every record `r` with `key_size == len(key)` and
`value_size == len(value)` (fields being `u32`-valued, as the Rust types
force), decoding the bytes produced by encoding `r` yields `r` back. -/
theorem c2_decode_encode_roundtrip (r : KeyValueEntry)
    (ht : r.tstamp < 2 ^ 32) (hk : r.ksz = r.key.length)
    (hv : r.value_sz = r.value.length)
    (hk32 : r.ksz < 2 ^ 32) (hv32 : r.value_sz < 2 ^ 32) :
    r.encode.bind KeyValueEntry.decode = some r := by
  obtain ⟨t, ks, vs, key, val⟩ := r
  simp only at ht hk hv hk32 hv32
  subst hk
  subst hv
  rw [encode_eq, Option.some_bind]
  unfold KeyValueEntry.decode
  simp only [encBytes, List.append_assoc]
  rw [readU32BE_u32ToBytesBE]
  simp only [Option.some_bind]
  rw [readU32BE_u32ToBytesBE]
  simp only [Option.some_bind]
  rw [readU32BE_u32ToBytesBE]
  simp only [Option.some_bind]
  rw [Nat.mod_eq_of_lt ht, Nat.mod_eq_of_lt hk32, Nat.mod_eq_of_lt hv32]
  rw [readExact_append]
  simp only [Option.some_bind]
  rw [readExact_all]
  simp only [Option.map_some']

/-- Concrete instance of `c2_decode_encode_roundtrip` at the test record. -/
theorem c2_decode_encode_roundtrip_witness :
    sampleEntry.tstamp < 2 ^ 32
    ∧ sampleEntry.ksz = sampleEntry.key.length
    ∧ sampleEntry.value_sz = sampleEntry.value.length
    ∧ sampleEntry.ksz < 2 ^ 32
    ∧ sampleEntry.value_sz < 2 ^ 32
    ∧ sampleEntry.encode.bind KeyValueEntry.decode = some sampleEntry :=
  ⟨by decide, by decide, by decide, by decide, by decide,
    c2_decode_encode_roundtrip sampleEntry (by decide) (by decide) (by decide)
      (by decide) (by decide)⟩

/-- Claim C3: for every record whose sizes match its payloads and are
representable in 32 bits, encoding succeeds and produces exactly
`12 + key_size + value_size` bytes laid out as big-endian `timestamp`,
`key_size`, `value_size`, then the key bytes, then the value bytes; in
particular the record with timestamp 42 and key and value `42` as 4-byte
big-endian integers encodes to the exact 20-byte sequence of the spec. -/
theorem c3_encode_layout (r : KeyValueEntry)
    (hk : r.ksz = r.key.length) (hv : r.value_sz = r.value.length)
    (hk32 : r.key.length < 2 ^ 32) (hv32 : r.value.length < 2 ^ 32) :
    r.encode = some (u32ToBytesBE r.tstamp ++ u32ToBytesBE r.ksz
        ++ u32ToBytesBE r.value_sz ++ r.key ++ r.value)
    ∧ (u32ToBytesBE r.tstamp ++ u32ToBytesBE r.ksz ++ u32ToBytesBE r.value_sz
        ++ r.key ++ r.value).length = 12 + r.ksz + r.value_sz
    ∧ sampleEntry.encode = some [0, 0, 0, 42, 0, 0, 0, 4, 0, 0, 0, 4,
        0, 0, 0, 42, 0, 0, 0, 42] := by
  refine ⟨encode_eq r, ?_, by decide⟩
  have h2 : (u32ToBytesBE r.tstamp ++ u32ToBytesBE r.ksz ++ u32ToBytesBE r.value_sz
      ++ r.key ++ r.value).length = 12 + r.key.length + r.value.length :=
    encBytes_length r
  rw [h2, hk, hv]

/-- Concrete instance of `c3_encode_layout` at the test record. -/
theorem c3_encode_layout_witness :
    sampleEntry.ksz = sampleEntry.key.length
    ∧ sampleEntry.value_sz = sampleEntry.value.length
    ∧ sampleEntry.key.length < 2 ^ 32
    ∧ sampleEntry.value.length < 2 ^ 32
    ∧ sampleEntry.encode = some (u32ToBytesBE sampleEntry.tstamp
        ++ u32ToBytesBE sampleEntry.ksz ++ u32ToBytesBE sampleEntry.value_sz
        ++ sampleEntry.key ++ sampleEntry.value) :=
  ⟨by decide, by decide, by decide, by decide,
    (c3_encode_layout sampleEntry (by decide) (by decide) (by decide) (by decide)).1⟩

/-- Claim C5: decoding fails exactly when the buffer is shorter than the
12 header bytes, or the declared key and value sizes together exceed the
bytes remaining after the header; otherwise it succeeds. -/
theorem c5_decode_error_condition (bytes : List Nat) :
    (KeyValueEntry.decode bytes).isSome = true ↔
      12 ≤ bytes.length
      ∧ headerField bytes 4 + headerField bytes 8 ≤ bytes.length - 12 := by
  by_cases h12 : 12 ≤ bytes.length
  · have e0 := readU32BE_eq_of_le bytes (by omega)
    have e4 := readU32BE_eq_of_le (bytes.drop 4) (by rw [List.length_drop]; omega)
    have hd8 : (bytes.drop 4).drop 4 = bytes.drop 8 := by simp [List.drop_drop]
    have e8 := readU32BE_eq_of_le (bytes.drop 8) (by rw [List.length_drop]; omega)
    have hd12 : (bytes.drop 8).drop 4 = bytes.drop 12 := by simp [List.drop_drop]
    unfold KeyValueEntry.decode
    rw [e0]
    simp only [Option.some_bind]
    rw [e4]
    simp only [Option.some_bind]
    rw [hd8, e8]
    simp only [Option.some_bind]
    rw [hd12, headerField_drop, headerField_drop]
    by_cases hK : headerField bytes 4 ≤ (bytes.drop 12).length
    · simp only [readExact]
      rw [if_pos hK]
      simp only [Option.some_bind]
      by_cases hV : headerField bytes 8 ≤ ((bytes.drop 12).drop (headerField bytes 4)).length
      · rw [if_pos hV]
        simp only [Option.map_some', Option.isSome_some, true_iff]
        refine ⟨h12, ?_⟩
        rw [List.length_drop] at hK
        rw [List.length_drop, List.length_drop] at hV
        omega
      · rw [if_neg hV]
        simp only [Option.map_none', Option.isSome_none, Bool.false_eq_true, false_iff]
        intro hc
        obtain ⟨hc1, hc2⟩ := hc
        rw [List.length_drop] at hK
        rw [List.length_drop, List.length_drop] at hV
        omega
    · simp only [readExact]
      rw [if_neg hK]
      simp only [Option.none_bind, Option.isSome_none, Bool.false_eq_true, false_iff]
      intro hc
      obtain ⟨hc1, hc2⟩ := hc
      rw [List.length_drop] at hK
      omega
  · have hnone : KeyValueEntry.decode bytes = none := by
      by_cases h4 : 4 ≤ bytes.length
      · by_cases h8 : 8 ≤ bytes.length
        · have e0 := readU32BE_eq_of_le bytes h4
          have e4 := readU32BE_eq_of_le (bytes.drop 4) (by rw [List.length_drop]; omega)
          have hd8 : (bytes.drop 4).drop 4 = bytes.drop 8 := by simp [List.drop_drop]
          have e8 := readU32BE_none_of_lt (bytes.drop 8) (by rw [List.length_drop]; omega)
          unfold KeyValueEntry.decode
          rw [e0]
          simp only [Option.some_bind]
          rw [e4]
          simp only [Option.some_bind]
          rw [hd8, e8]
          simp only [Option.none_bind]
        · have e0 := readU32BE_eq_of_le bytes h4
          have e4 := readU32BE_none_of_lt (bytes.drop 4) (by rw [List.length_drop]; omega)
          unfold KeyValueEntry.decode
          rw [e0]
          simp only [Option.some_bind]
          rw [e4]
          simp only [Option.none_bind]
      · have e0 := readU32BE_none_of_lt bytes (by omega)
        unfold KeyValueEntry.decode
        rw [e0]
        simp only [Option.none_bind]
    rw [hnone]
    simp [h12]

/-- Claim C7: `get` for a key never written returns the empty result
`none`, not an error, and a fresh store returns `none` for every key. -/
theorem c7_absent_key (id : Nat) (ops : List PutOp) (k : List Nat)
    (h : ∀ op ∈ ops, op.key ≠ k) :
    (runOps (MemoryStore.new id) ops).get k = none
    ∧ (MemoryStore.new id).get k = none := by
  constructor
  · apply get_none_of_lookup_none
    exact lookupKey_runOps_none ops (MemoryStore.new id) k h rfl
  · rfl

/-- Concrete instance of `c7_absent_key`. -/
theorem c7_absent_key_witness :
    (∀ op ∈ ([{ now := 0, key := [1], value := [2] }] : List PutOp), op.key ≠ [3])
    ∧ (runOps (MemoryStore.new 0) [{ now := 0, key := [1], value := [2] }]).get [3] = none
    ∧ (MemoryStore.new 0).get [3] = none :=
  ⟨by decide, c7_absent_key 0 [{ now := 0, key := [1], value := [2] }] [3] (by decide)⟩

/-- Claim C8: `get` is total; when the index entry's byte range
`[value_pos, value_pos + value_sz)` lies outside the segment's bounds,
`get` returns `none` rather than faulting. -/
theorem c8_get_out_of_bounds (s : MemoryStore) (k : List Nat) (e : KeyDirEntry)
    (hl : lookupKey s.keydir k = some e)
    (hb : s.file.data.length < e.value_pos + e.value_sz) :
    s.get k = none := by
  unfold MemoryStore.get
  rw [hl]
  simp only [Option.some_bind]
  unfold rangeGet
  split
  case isTrue hc =>
    exact absurd hc.2 (by omega)
  case isFalse hc =>
    rfl

/-- Concrete instance of `c8_get_out_of_bounds` at the inconsistent store. -/
theorem c8_get_out_of_bounds_witness :
    lookupKey badStore.keydir [7]
      = some { file_id := 0, value_sz := 5, value_pos := 2, tstamp := 0 }
    ∧ badStore.file.data.length < 2 + 5
    ∧ badStore.get [7] = none :=
  ⟨by decide, by decide,
    c8_get_out_of_bounds badStore [7]
      { file_id := 0, value_sz := 5, value_pos := 2, tstamp := 0 }
      (by decide) (by decide)⟩

/-- Claim C9: the segment is append-only: `append` grows the length by
exactly the appended byte count, the bytes already stored stay unchanged,
the id never changes, and the segment size is non-decreasing across every
store operation (`get` takes `&self` and never mutates the store). -/
theorem c9_append_only (f : File) (bs : List Nat) (s : MemoryStore) (op : PutOp) :
    (f.append bs).size = f.size + bs.length
    ∧ (f.append bs).data.take f.size = f.data
    ∧ (f.append bs).id = f.id
    ∧ s.file.size ≤ (applyPut s op).file.size
    ∧ (applyPut s op).file.id = s.file.id
    ∧ (applyPut s op).file.data.take s.file.size = s.file.data := by
  refine ⟨?_, ?_, rfl, ?_, ?_, ?_⟩
  · simp [File.append, File.size]
  · show (f.data ++ bs).take f.data.length = f.data
    exact List.take_left f.data bs
  · rw [applyPut_eq]
    simp [File.append, File.size]
  · rw [applyPut_eq]
    rfl
  · rw [applyPut_eq]
    show (s.file.data ++ _).take s.file.data.length = s.file.data
    exact List.take_left s.file.data _

/-- Claim C10: `put` never returns an error — serialization into the
in-memory buffer cannot fail, so the error branch of `put` is unreachable
and `put` (like `encode`) always succeeds. -/
theorem c10_put_never_fails (s : MemoryStore) (now : Nat) (k v : List Nat)
    (e : KeyValueEntry) :
    (s.put now k v).isSome = true ∧ e.encode.isSome = true := by
  constructor
  · rw [put_eq]
    rfl
  · rw [encode_eq]
    rfl

end Caska
